import Mathlib

/-
Verification of the natural-language specification of the
coriolinus/adventofcode-2016 repository against its source.

The relevant source units are embedded shallowly:
  * src/assembunny/src/lib.rs — the assembunny virtual machine
    (namespace Assembunny below);
  * src/day11/src/lib.rs — the elevator-puzzle breadth-first search
    (namespace Day11 below);
  * src/day20/src/lib.rs — the IP-blacklist range computations
    (namespace Day20 below).

Machine-integer conventions: Rust `i32` values are modelled as `Int`, with
two's-complement wrap-around (`wrap32`) applied exactly where the source
performs `i32` arithmetic that can overflow (release-mode semantics);
`u32` values are modelled as `Nat` (with explicit `% 2^32` where the source
can overflow a `u32`); `usize` is modelled as `Nat`, with the `!0` halt
marker written `USIZEMAX = 2^64 - 1`.  `Vec`/`BTreeSet` become `List`
(sorted, duplicate-free lists for `BTreeSet`).  The one concurrent feature
of the code, the mpsc channel behind `Computer::sender`, is modelled as an
output buffer on which a send always succeeds; the absent-sender early
return of `Computer::step` is modelled exactly, while a send failure
against a dropped receiver is a cross-thread behaviour outside this model.
-/

namespace Assembunny

/-- Registers of the assembunny machine (`enum Register` in
src/assembunny/src/lib.rs). -/
inductive Register
  | A
  | B
  | C
  | D
deriving DecidableEq, Repr

/-- Instruction operands: a register reference or a literal integer
(`enum Value`; the Rust constructor names `Value::Register` and
`Value::Value` are written `reg` and `val`, since Lean refuses a
constructor named after its own type). -/
inductive Value
  | reg (r : Register)
  | val (i : Int)
deriving DecidableEq, Repr

/-- `Value::as_register`. -/
def Value.asRegister : Value → Option Register
  | .reg r => some r
  | _ => none

/-- `enum Instruction`. -/
inductive Instruction
  | Copy (src dst : Value)
  | Increase (v : Value)
  | Decrease (v : Value)
  | Jnz (cond dist : Value)
  | Toggle (v : Value)
  | Out (v : Value)
deriving DecidableEq, Repr

/-- `Instruction::toggle` (in-place mutation in Rust; a pure function here). -/
def Instruction.toggle : Instruction → Instruction
  | .Increase v => .Decrease v
  | .Decrease v => .Increase v
  | .Toggle v => .Increase v
  | .Out v => .Increase v
  | .Jnz v q => .Copy v q
  | .Copy v q => .Jnz v q

/-- Two's-complement wrap-around into the `i32` range, the release-mode
meaning of the `+= 1` / `-= 1` register updates. -/
def wrap32 (i : Int) : Int := (i + 2 ^ 31) % 2 ^ 32 - 2 ^ 31

/-- `usize::MAX` on a 64-bit target: the `!0` halt marker stored into
`Computer::ip` when the next instruction pointer leaves the program. -/
def USIZEMAX : Nat := 2 ^ 64 - 1

/-- `struct Computer`.  The `sender` field (an
`Option<SyncSender<Integer>>` in Rust) is modelled as an optional output
buffer; see the header comment. -/
structure Computer where
  a : Int
  b : Int
  c : Int
  d : Int
  ip : Nat
  program : List Instruction
  sender : Option (List Int)
deriving DecidableEq, Repr

/-- `Index<Register> for Computer`. -/
def Computer.getReg (c : Computer) : Register → Int
  | .A => c.a
  | .B => c.b
  | .C => c.c
  | .D => c.d

/-- `IndexMut<Register> for Computer` (functional update). -/
def Computer.setReg (c : Computer) : Register → Int → Computer
  | .A, x => { c with a := x }
  | .B, x => { c with b := x }
  | .C, x => { c with c := x }
  | .D, x => { c with d := x }

/-- `Computer::value`. -/
def Computer.value (c : Computer) : Value → Int
  | .reg r => c.getReg r
  | .val i => i

/-- Stand-in result of the panicking index `self.program[self.ip]` when
`ip` is out of range; unreachable under the valid-`ip` hypotheses of every
theorem below. -/
def defaultInstruction : Instruction := .Copy (.val 0) (.val 0)

/-- The clamping performed by `Computer::step` lines 146-150: an in-range
computed next instruction pointer is kept, anything else becomes the `!0`
halt marker. -/
def clampIp (len : Nat) (n : Int) : Nat :=
  if 0 ≤ n ∧ n < (len : Int) then n.toNat else USIZEMAX

/-- The jump distance of `Computer::step` lines 141-145, read from the
(post-execution) program. -/
def Computer.jumpOffset (c : Computer) : Int :=
  match c.program.getD c.ip defaultInstruction with
  | .Jnz v d => if c.value v ≠ 0 then c.value d else 1
  | _ => 1

/-- `Computer::step` lines 141-152: advance `ip` by the Jnz/fallthrough
rule, clamp out-of-range targets to the halt marker, and report whether
the machine should continue. -/
def Computer.stepAdvance (c : Computer) : Computer × Bool :=
  let c' := { c with ip := clampIp c.program.length ((c.ip : Int) + c.jumpOffset) }
  (c', c'.ip != USIZEMAX)

/-- `Computer::step`: execute the instruction at `ip`, then advance. -/
def Computer.step (c : Computer) : Computer × Bool :=
  match c.program.getD c.ip defaultInstruction with
  | .Copy v w =>
      (match w.asRegister with
       | some r => c.setReg r (c.value v)
       | none => c).stepAdvance
  | .Increase w =>
      (match w.asRegister with
       | some r => c.setReg r (wrap32 (c.getReg r + 1))
       | none => c).stepAdvance
  | .Decrease w =>
      (match w.asRegister with
       | some r => c.setReg r (wrap32 (c.getReg r - 1))
       | none => c).stepAdvance
  | .Jnz _ _ => c.stepAdvance
  | .Toggle v =>
      (if 0 ≤ (c.ip : Int) + c.value v ∧
          (c.ip : Int) + c.value v < (c.program.length : Int) then
        { c with
            program :=
              c.program.set ((c.ip : Int) + c.value v).toNat
                ((c.program.getD ((c.ip : Int) + c.value v).toNat
                  defaultInstruction).toggle) }
       else c).stepAdvance
  | .Out v =>
      match c.sender with
      | none => (c, false)
      | some buf => ({ c with sender := some (buf ++ [c.value v]) }).stepAdvance

/-- `Computer::run` (`while self.step() {}`), made total with explicit
fuel: `run fuel c` performs at most `fuel` steps, stopping early as soon
as `step` reports a halt. -/
def Computer.run : Nat → Computer → Computer
  | 0, c => c
  | fuel + 1, c =>
      match c.step with
      | (c', true) => Computer.run fuel c'
      | (c', false) => c'

end Assembunny

namespace Assembunny

/-- Claim C6: the toggle operation maps Increase to Decrease, Decrease to
Increase, Toggle to Increase, Out to Increase, Jnz to Copy and Copy to
Jnz, preserving the operand values unchanged in every case. -/
theorem toggle_mapping : ∀ v q : Value,
    (Instruction.Increase v).toggle = .Decrease v ∧
    (Instruction.Decrease v).toggle = .Increase v ∧
    (Instruction.Toggle v).toggle = .Increase v ∧
    (Instruction.Out v).toggle = .Increase v ∧
    (Instruction.Jnz v q).toggle = .Copy v q ∧
    (Instruction.Copy v q).toggle = .Jnz v q := by
  intro v q
  exact ⟨rfl, rfl, rfl, rfl, rfl, rfl⟩

/-- Counterexample to claim C4: toggling the instruction
`cpy 1 2` (a Copy whose destination operand is the literal 2) does not
leave it unchanged — it becomes `jnz 1 2`. -/
theorem toggle_copy_literal_dest_cx :
    (Instruction.Copy (.val 1) (.val 2)).toggle ≠
      Instruction.Copy (.val 1) (.val 2) ∧
    (Instruction.Copy (.val 1) (.val 2)).toggle =
      Instruction.Jnz (.val 1) (.val 2) := by
  exact ⟨by decide, rfl⟩

/-- Claim C4 (amended): applying the toggle operation to a Copy
instruction whose destination operand is a literal Value turns it into a
Jnz with both operand values unchanged (it is the execution of such a
Copy, not its toggling, that is a no-op). -/
theorem toggle_copy_literal_dest : ∀ (v : Value) (i : Int),
    (Instruction.Copy v (.val i)).toggle = Instruction.Jnz v (.val i) := by
  intro v i
  rfl

theorem usizemax_eq : USIZEMAX = 18446744073709551615 := rfl

theorem clampIp_lt_or_eq_max (len : Nat) (n : Int) :
    clampIp len n < len ∨ clampIp len n = USIZEMAX := by
  unfold clampIp
  split
  · rename_i h
    left
    omega
  · right
    rfl

theorem stepAdvance_ip_cases (c' : Computer) :
    (c'.stepAdvance).1.ip < (c'.stepAdvance).1.program.length ∨
    (c'.stepAdvance).1.ip = USIZEMAX :=
  clampIp_lt_or_eq_max c'.program.length ((c'.ip : Int) + c'.jumpOffset)

/-- Claim C9: starting from a valid instruction pointer, a step leaves
the instruction pointer either a valid index into the (possibly toggled)
program or equal to the all-ones halt marker; never any other
out-of-range value. -/
theorem step_ip_valid_or_sentinel (c : Computer) (hip : c.ip < c.program.length) :
    (c.step).1.ip < (c.step).1.program.length ∨ (c.step).1.ip = USIZEMAX := by
  cases hh : c.program.getD c.ip defaultInstruction with
  | Copy v w =>
      cases hw : w.asRegister with
      | some r =>
          simp only [Computer.step, hh, hw]
          exact stepAdvance_ip_cases _
      | none =>
          simp only [Computer.step, hh, hw]
          exact stepAdvance_ip_cases _
  | Increase w =>
      cases hw : w.asRegister with
      | some r =>
          simp only [Computer.step, hh, hw]
          exact stepAdvance_ip_cases _
      | none =>
          simp only [Computer.step, hh, hw]
          exact stepAdvance_ip_cases _
  | Decrease w =>
      cases hw : w.asRegister with
      | some r =>
          simp only [Computer.step, hh, hw]
          exact stepAdvance_ip_cases _
      | none =>
          simp only [Computer.step, hh, hw]
          exact stepAdvance_ip_cases _
  | Jnz v d =>
      simp only [Computer.step, hh]
      exact stepAdvance_ip_cases _
  | Toggle v =>
      simp only [Computer.step, hh]
      by_cases ht : 0 ≤ (c.ip : Int) + c.value v ∧
          (c.ip : Int) + c.value v < (c.program.length : Int)
      · rw [if_pos ht]
        exact stepAdvance_ip_cases _
      · rw [if_neg ht]
        exact stepAdvance_ip_cases _
  | Out v =>
      cases hs : c.sender with
      | none =>
          simp only [Computer.step, hh, hs]
          exact Or.inl hip
      | some buf =>
          simp only [Computer.step, hh, hs]
          exact stepAdvance_ip_cases _

/-- Computer used to witness claims C9 and C1: `inc a` at ip 0. -/
def wInc : Computer :=
  { a := 0, b := 0, c := 0, d := 0, ip := 0,
    program := [.Increase (.reg .A)], sender := none }

/-- Witness for claim C9 at the concrete Computer `wInc`. -/
theorem step_ip_valid_or_sentinel_witness :
    wInc.ip < wInc.program.length ∧
    ((wInc.step).1.ip < (wInc.step).1.program.length ∨
     (wInc.step).1.ip = USIZEMAX) :=
  ⟨by decide, step_ip_valid_or_sentinel wInc (by decide)⟩

/-- Claim C10: with no sender set, executing an Out makes step() return
false immediately with the whole state unchanged: the very same Computer
comes back, the instruction pointer is still the prior valid in-bounds
index (not the halt marker), and run() halts at once from this state. -/
theorem out_no_sender_frame (c : Computer) (v : Value)
    (hip : c.ip < c.program.length)
    (hlen : c.program.length ≤ USIZEMAX)
    (hsend : c.sender = none)
    (hh : c.program.getD c.ip defaultInstruction = Instruction.Out v) :
    c.step = (c, false) ∧
    (c.step).1.ip < (c.step).1.program.length ∧
    (c.step).1.ip ≠ USIZEMAX ∧
    ∀ fuel, Computer.run fuel c = c := by
  have hstep : c.step = (c, false) := by
    simp only [Computer.step, hh, hsend]
  have hU := usizemax_eq
  refine ⟨hstep, by rw [hstep]; exact hip, by rw [hstep]; simp only; omega, ?_⟩
  intro fuel
  cases fuel with
  | zero => rfl
  | succ n =>
      show (match c.step with
            | (c', true) => Computer.run n c'
            | (c', false) => c') = c
      rw [hstep]

/-- Computer used to witness claim C10: senderless `out a` at ip 0 with a
second instruction after it. -/
def wOut : Computer :=
  { a := 0, b := 0, c := 0, d := 0, ip := 0,
    program := [.Out (.reg .A), .Increase (.reg .A)], sender := none }

/-- Witness for claim C10 at the concrete Computer `wOut`. -/
theorem out_no_sender_frame_witness :
    (wOut.ip < wOut.program.length ∧
     wOut.program.length ≤ USIZEMAX ∧
     wOut.sender = none ∧
     wOut.program.getD wOut.ip defaultInstruction = Instruction.Out (.reg .A)) ∧
    (wOut.step = (wOut, false) ∧
     (wOut.step).1.ip < (wOut.step).1.program.length ∧
     (wOut.step).1.ip ≠ USIZEMAX ∧
     ∀ fuel, Computer.run fuel wOut = wOut) :=
  ⟨⟨by decide, by decide, by decide, by decide⟩,
    out_no_sender_frame wOut (.reg .A) (by decide) (by decide) (by decide) (by decide)⟩

end Assembunny

namespace Day11

/-- `enum Element` (src/day11/src/lib.rs); the derived Rust `Ord` is the
declaration order used below by `elemIdx`. -/
inductive Element
  | Cobalt
  | Curium
  | Hydrogen
  | Lithium
  | Plutonium
  | Promethium
  | Ruthenium
deriving DecidableEq, Repr, Fintype

/-- The derived `Ord` rank of an element (declaration order). -/
def elemIdx : Element → Nat
  | .Cobalt => 0
  | .Curium => 1
  | .Hydrogen => 2
  | .Lithium => 3
  | .Plutonium => 4
  | .Promethium => 5
  | .Ruthenium => 6

/-- `enum Gadget`. -/
inductive Gadget
  | Generator
  | Microchip
deriving DecidableEq, Repr

/-- `struct Device`. -/
structure Device where
  element : Element
  gadget : Gadget
deriving DecidableEq, Repr

/-- `BTreeSet<Element>::insert` on the sorted duplicate-free list model. -/
def insertElem (e : Element) : List Element → List Element
  | [] => [e]
  | x :: xs =>
      if elemIdx e < elemIdx x then e :: x :: xs
      else if elemIdx e = elemIdx x then x :: xs
      else x :: insertElem e xs

/-- `BTreeSet<Element>::remove`. -/
def removeElem (e : Element) (l : List Element) : List Element :=
  l.filter (fun x => x ≠ e)

/-- `struct Floor`: the two `BTreeSet<Element>`s as sorted lists. -/
structure Floor where
  generators : List Element
  microchips : List Element
deriving DecidableEq, Repr

/-- The inner `while let Some(chip) = chip_iter.next()` loop of
`Floor::is_safe`: scan the remaining chips for one equal to the
generator, consuming everything up to and including the match. -/
def findAndDrop (g : Element) : List Element → Option (List Element)
  | [] => none
  | c :: cs => if c = g then some cs else findAndDrop g cs

/-- The outer `while let Some(generator) = gen_iter.next()` loop of
`Floor::is_safe`: note that in the source the chip iterator is shared
across generators, so each generator scans only the chips left over by
its predecessors. -/
def allGeneratorsPaired : List Element → List Element → Bool
  | [], _ => true
  | g :: gs, chips =>
      match findAndDrop g chips with
      | some rest => allGeneratorsPaired gs rest
      | none => false

/-- `Floor::is_safe` (lib.rs:48-70): vacuously true when either set is
empty, otherwise true exactly when every generator finds its own
microchip. -/
def Floor.isSafe (f : Floor) : Bool :=
  if f.microchips.length = 0 || f.generators.length = 0 then true
  else allGeneratorsPaired f.generators f.microchips

/-- `Floor::is_empty`. -/
def Floor.isEmpty (f : Floor) : Bool :=
  f.microchips.isEmpty && f.generators.isEmpty

/-- `Floor::add_device`. -/
def Floor.addDevice (f : Floor) (d : Device) : Floor :=
  match d.gadget with
  | .Generator => { f with generators := insertElem d.element f.generators }
  | .Microchip => { f with microchips := insertElem d.element f.microchips }

/-- `Floor::rm_device`. -/
def Floor.rmDevice (f : Floor) (d : Device) : Floor :=
  match d.gadget with
  | .Generator => { f with generators := removeElem d.element f.generators }
  | .Microchip => { f with microchips := removeElem d.element f.microchips }

/-- `Floor::devices`: generators first, then microchips. -/
def Floor.devices (f : Floor) : List Device :=
  f.generators.map (fun e => { element := e, gadget := .Generator }) ++
    f.microchips.map (fun e => { element := e, gadget := .Microchip })

/-- `pub const FLOORS: usize = 4`. -/
def FLOORS : Nat := 4

def defaultFloor : Floor := { generators := [], microchips := [] }

/-- `struct State`.  The `parent: Option<Rc<State>>` back-pointer is
omitted: it exists only to recover the path length via `State::steps` and
takes no part in the floors, the safety checks or the isomorph. -/
structure State where
  elevator : Nat
  floors : List Floor
deriving DecidableEq, Repr

/-- `State::default()`. -/
def State.default : State :=
  { elevator := 0, floors := List.replicate FLOORS defaultFloor }

/-- `State::is_safe`. -/
def State.isSafe (s : State) : Bool :=
  s.floors.all Floor.isSafe

/-- `State::add_device`. -/
def State.addDevice (s : State) (floor : Nat) (d : Device) : State :=
  { s with floors := s.floors.set floor ((s.floors.getD floor defaultFloor).addDevice d) }

/-- `next.floors[i].rm_device(d)` as a functional update. -/
def State.rmAt (s : State) (i : Nat) (d : Device) : State :=
  { s with floors := s.floors.set i ((s.floors.getD i defaultFloor).rmDevice d) }

/-- `next.floors[i].add_device(d)` as a functional update. -/
def State.addAt (s : State) (i : Nat) (d : Device) : State :=
  { s with floors := s.floors.set i ((s.floors.getD i defaultFloor).addDevice d) }

/-- `itertools::tuple_combinations` for pairs: all (earlier, later)
pairs in order. -/
def tupleCombinations {α : Type} : List α → List (α × α)
  | [] => []
  | x :: xs => xs.map (fun y => (x, y)) ++ tupleCombinations xs

/-- Index of an element in the encountered-elements list of
`State::isomorph`. -/
def encIndex (e : Element) : List Element → Option Nat
  | [] => none
  | x :: xs => if x = e then some 0 else (encIndex e xs).map (· + 1)

/-- The `element_index` closure of `State::isomorph`: look the element up
among those already encountered, or assign it the next free index. -/
def lookupOrAdd (enc : List Element) (e : Element) : List Element × Nat :=
  match encIndex e enc with
  | some i => (enc, i)
  | none => (enc ++ [e], enc.length)

/-- One generator's contribution to the isomorph (bit 16*floor + 8 + index). -/
def isoGen (floorIdx : Nat) (st : List Element × Nat) (g : Element) :
    List Element × Nat :=
  let p := lookupOrAdd st.1 g
  (p.1, st.2 ||| 2 ^ (16 * floorIdx + 8 + p.2))

/-- One microchip's contribution to the isomorph (bit 16*floor + index). -/
def isoChip (floorIdx : Nat) (st : List Element × Nat) (m : Element) :
    List Element × Nat :=
  let p := lookupOrAdd st.1 m
  (p.1, st.2 ||| 2 ^ (16 * floorIdx + p.2))

/-- `State::isomorph` (lib.rs:225-275): floors in order, generators then
microchips per floor, element identities collapsed to
first-encountered-index classes.  All bit offsets stay below 64 for the
4-floor, at-most-8-element states of the puzzle, so the `u64` needs no
truncation. -/
def State.isomorph (s : State) : Nat :=
  (s.floors.enum.foldl
    (fun st fl =>
      fl.2.microchips.foldl (isoChip fl.1)
        (fl.2.generators.foldl (isoGen fl.1) st))
    ([], 0)).2

/-- `State::next` (lib.rs:145-223): all legal elevator moves from this
state, preferring two devices on the way up and one on the way down, and
dropping anything unsafe or already visited. -/
def State.next (s : State) (visited : List Nat) : List State :=
  let devices := (s.floors.getD s.elevator defaultFloor).devices
  let upPart :=
    if s.elevator < FLOORS - 1 then
      let pairsUp := (tupleCombinations devices).filterMap (fun p =>
        let n := ((({ s with elevator := s.elevator + 1 }).rmAt s.elevator p.1).rmAt
            s.elevator p.2).addAt (s.elevator + 1) p.1 |>.addAt (s.elevator + 1) p.2
        if n.isSafe && !(visited.contains n.isomorph) then some n else none)
      if pairsUp.isEmpty then
        devices.filterMap (fun d =>
          let n := (({ s with elevator := s.elevator + 1 }).rmAt s.elevator d).addAt
              (s.elevator + 1) d
          if n.isSafe && !(visited.contains n.isomorph) then some n else none)
      else pairsUp
    else []
  let downPart :=
    if 0 < s.elevator ∧ (s.floors.take s.elevator).any (fun f => !f.isEmpty) = true then
      let singlesDown := devices.filterMap (fun d =>
        let n := (({ s with elevator := s.elevator - 1 }).rmAt s.elevator d).addAt
            (s.elevator - 1) d
        if n.isSafe && !(visited.contains n.isomorph) then some n else none)
      if singlesDown.isEmpty then
        (tupleCombinations devices).filterMap (fun p =>
          let n := ((({ s with elevator := s.elevator - 1 }).rmAt s.elevator p.1).rmAt
              s.elevator p.2).addAt (s.elevator - 1) p.1 |>.addAt (s.elevator - 1) p.2
          if n.isSafe && !(visited.contains n.isomorph) then some n else none)
      else singlesDown
    else []
  upPart ++ downPart

/-- The safety invariant in the specification's own words: on every
floor containing at least one generator, every microchip on that floor is
accompanied by the generator of its own element. -/
def specFloorSafe (f : Floor) : Bool :=
  f.generators.isEmpty || f.microchips.all (fun m => f.generators.contains m)

/-- The specification's safety invariant over all floors of a state. -/
def specStateSafe (s : State) : Bool :=
  s.floors.all specFloorSafe

/-- Parent state for the C2 failing input: elevator on floor 0 with a
lone Lithium microchip; floor 1 holds the Hydrogen generator and the
Hydrogen microchip. -/
def bugParent : State :=
  ((State.default.addDevice 0 { element := .Lithium, gadget := .Microchip }).addDevice 1
      { element := .Hydrogen, gadget := .Generator }).addDevice 1
    { element := .Hydrogen, gadget := .Microchip }

/-- The successor State::next produces from `bugParent`: the Lithium
microchip carried up to floor 1, where it sits unshielded next to the
foreign Hydrogen generator. -/
def bugChild : State :=
  { elevator := 1,
    floors :=
      [{ generators := [], microchips := [] },
       { generators := [.Hydrogen], microchips := [.Hydrogen, .Lithium] },
       { generators := [], microchips := [] },
       { generators := [], microchips := [] }] }

end Day11

namespace Day11

/-- Claim C2 is refuted by the code (code bug): from the safe state
`bugParent` (safe under the code's Floor::is_safe and under the
specification's invariant alike), State::next produces `bugChild`, whose
floor 1 holds a generator while the Lithium microchip there lacks its own
generator — an unshielded microchip beside a foreign generator.  The
code's Floor::is_safe checks that every generator has its chip, not that
every chip has its generator. -/
theorem next_emits_spec_unsafe_state :
    bugParent.isSafe = true ∧ specStateSafe bugParent = true ∧
    bugChild ∈ bugParent.next [] ∧ specStateSafe bugChild = false := by
  decide

/-- The element renaming asserted equivalent by the repository's own
`test_isomorph_equivalence` unit test: Hydrogen <-> Plutonium and
Lithium <-> Cobalt. -/
def testRenaming : Element → Element
  | .Hydrogen => .Plutonium
  | .Plutonium => .Hydrogen
  | .Lithium => .Cobalt
  | .Cobalt => .Lithium
  | e => e

/-- Sort a list of elements into the set order (used to rebuild the
sorted-set representation after renaming). -/
def sortElems (l : List Element) : List Element :=
  l.foldl (fun acc e => insertElem e acc) []

/-- Apply a bijective element renaming to a state, re-sorting each
floor's sets (a renamed `BTreeSet` iterates in the order of the renamed
elements). -/
def specRenameState (f : Element → Element) (s : State) : State :=
  { elevator := s.elevator,
    floors := s.floors.map (fun fl =>
      { generators := sortElems (fl.generators.map f),
        microchips := sortElems (fl.microchips.map f) }) }

/-- The `example()` state of the repository's day11 test module. -/
def exampleState : State :=
  (((State.default.addDevice 0 { element := .Hydrogen, gadget := .Microchip }).addDevice 0
        { element := .Lithium, gadget := .Microchip }).addDevice 1
      { element := .Hydrogen, gadget := .Generator }).addDevice 2
    { element := .Lithium, gadget := .Generator }

/-- The `equiv` state of the repository's `test_isomorph_equivalence`
test: `exampleState` with Hydrogen renamed to Plutonium and Lithium to
Cobalt. -/
def equivState : State :=
  (((State.default.addDevice 0 { element := .Plutonium, gadget := .Microchip }).addDevice 0
        { element := .Cobalt, gadget := .Microchip }).addDevice 1
      { element := .Plutonium, gadget := .Generator }).addDevice 2
    { element := .Cobalt, gadget := .Generator }

/-- Claim C5 is refuted by the code (code bug): `exampleState` and
`equivState` are identical up to the bijective renaming `testRenaming`
(an involution), yet State::isomorph gives them different values
(2199040032771 vs 1099545182211) — the pair the repository's own
`test_isomorph_equivalence` asserts equal. -/
theorem isomorph_not_renaming_invariant :
    (∀ e, testRenaming (testRenaming e) = e) ∧
    specRenameState testRenaming exampleState = equivState ∧
    exampleState.isomorph ≠ equivState.isomorph := by
  refine ⟨by decide, by decide, by decide⟩

end Day11

namespace Day20

/-- `u32::MAX`. -/
def U32MAX : Nat := 4294967295

theorem u32max_eq : U32MAX = 4294967295 := rfl

/-- `struct Rule(u32, u32)` (src/day20/src/lib.rs): an inclusive
blacklisted range `low-high`. -/
structure Rule where
  low : Nat
  high : Nat
deriving DecidableEq, Repr

/-- The derived lexicographic order of `Rule`, as used by
`sort_unstable`. -/
def ruleLE (r1 r2 : Rule) : Prop :=
  r1.low < r2.low ∨ (r1.low = r2.low ∧ r1.high ≤ r2.high)

instance : DecidableRel ruleLE := fun r1 r2 =>
  inferInstanceAs (Decidable (r1.low < r2.low ∨ (r1.low = r2.low ∧ r1.high ≤ r2.high)))

instance : IsTotal Rule ruleLE :=
  ⟨fun a b => by unfold ruleLE; omega⟩

instance : IsTrans Rule ruleLE :=
  ⟨fun a b c => by unfold ruleLE; omega⟩

/-- The `coalesce` accumulator loop of `ordered_rules_iter_from`
(itertools `coalesce` semantics): carry the current range forward,
merging each following rule whose low end does not exceed the current
high end; otherwise emit the current range and continue from the next. -/
def mergeRule (cur r2 : Rule) : Rule :=
  { low := cur.low, high := max cur.high r2.high }

def coalesceFrom (cur : Rule) : List Rule → List Rule
  | [] => [cur]
  | r2 :: rest =>
      if r2.low ≤ cur.high then coalesceFrom (mergeRule cur r2) rest
      else cur :: coalesceFrom r2 rest

def coalesce : List Rule → List Rule
  | [] => []
  | r :: rest => coalesceFrom r rest

/-- `ordered_rules_iter_from`: sort, then coalesce.  `sort_unstable` is
modelled by insertion sort: the derived order is total and antisymmetric,
so every correct comparison sort yields this same list. -/
def orderedRules (rules : List Rule) : List Rule :=
  coalesce (List.insertionSort ruleLE rules)

/-- `u32` wrap-around for the `prev_high + 1` sums (release-mode
semantics; for well-formed separated inputs the guards keep `prev_high`
below `u32::MAX` whenever the sum is computed, so no wrap occurs). -/
def wrapU32 (n : Nat) : Nat := n % 4294967296

/-- The scanning loop of `lowest_legal_value` (lib.rs:46-52): emit
`prev_high + 1` at the first gap, or at the end when `prev_high` leaves
room; the final `None` is the fall-through of lib.rs:54. -/
def llvLoop : List Rule → Option Nat
  | [] => none
  | [r] => if r.high < U32MAX - 1 then some (r.high + 1) else none
  | r :: r2 :: rest =>
      if wrapU32 (r.high + 1) < r2.low then some (wrapU32 (r.high + 1))
      else llvLoop (r2 :: rest)

/-- `lowest_legal_value` (lib.rs:39-55). -/
def lowestLegalValue (rules : List Rule) : Option Nat :=
  match orderedRules rules with
  | [] => none
  | r :: rest => if 0 < r.low then some 0 else llvLoop (r :: rest)

/-- The counting loop of `num_legal_values_in` (lib.rs:79-87) at the
full-range bounds (lower 0, upper `u32::MAX`) used by
`num_legal_values`; `checked_sub(..).unwrap_or_default()` is Nat
truncated subtraction. -/
def nlvLoop : List Rule → Nat
  | [] => 0
  | [r] => U32MAX - r.high
  | r :: r2 :: rest =>
      (if 1 < r2.low - r.high then r2.low - r.high - 1 else 0) + nlvLoop (r2 :: rest)

/-- `num_legal_values` = `num_legal_values_in(rules, ..)`
(lib.rs:57-90). -/
def numLegalValues (rules : List Rule) : Nat :=
  (match orderedRules rules with
   | [] => 0
   | r :: _ => if 0 < r.low then r.low else 0) +
  nlvLoop (orderedRules rules)

/-- A value is blacklisted when some rule's inclusive range contains
it. -/
def blacklisted (rules : List Rule) (n : Nat) : Prop :=
  ∃ r ∈ rules, r.low ≤ n ∧ n ≤ r.high

instance (rules : List Rule) (n : Nat) : Decidable (blacklisted rules n) :=
  inferInstanceAs (Decidable (∃ r ∈ rules, r.low ≤ n ∧ n ≤ r.high))

/-- Well-formed input: every rule a genuine `u32` range with
`low ≤ high` (the `debug_assert` of lib.rs:25) and `high ≤ u32::MAX`. -/
def wfRules (rules : List Rule) : Prop :=
  ∀ r ∈ rules, r.low ≤ r.high ∧ r.high ≤ U32MAX

instance (rules : List Rule) : Decidable (wfRules rules) :=
  inferInstanceAs (Decidable (∀ r ∈ rules, r.low ≤ r.high ∧ r.high ≤ U32MAX))

/-- Ordering by low ends only. -/
def lowLE (r1 r2 : Rule) : Prop := r1.low ≤ r2.low

/-- Strict separation of consecutive coalesced ranges. -/
def Separated (l : List Rule) : Prop := l.Chain' (fun a b => a.high < b.low)

/-- The high end of the final rule (0 for an empty list). -/
def lastHigh : List Rule → Nat
  | [] => 0
  | [r] => r.high
  | _ :: r2 :: rest => lastHigh (r2 :: rest)

end Day20

namespace Day20

theorem mergeRule_low (cur r2 : Rule) : (mergeRule cur r2).low = cur.low := rfl

theorem mergeRule_high (cur r2 : Rule) :
    (mergeRule cur r2).high = max cur.high r2.high := rfl

theorem blacklisted_nil (n : Nat) : ¬ blacklisted [] n := by
  rintro ⟨r, hr, -⟩
  exact absurd hr (List.not_mem_nil r)

theorem blacklisted_cons (r : Rule) (l : List Rule) (n : Nat) :
    blacklisted (r :: l) n ↔ (r.low ≤ n ∧ n ≤ r.high) ∨ blacklisted l n := by
  unfold blacklisted
  simp [List.mem_cons, or_and_right, exists_or]

/-- Case eliminator matching the empty / single / two-or-more shapes of
the scanning loops. -/
theorem ruleListRec {motive : List Rule → Prop} (nil : motive [])
    (single : ∀ r, motive [r])
    (cons2 : ∀ r r2 rest, motive (r2 :: rest) → motive (r :: r2 :: rest)) :
    ∀ l, motive l
  | [] => nil
  | [r] => single r
  | r :: r2 :: rest => cons2 r r2 rest (ruleListRec nil single cons2 (r2 :: rest))

theorem coalesceFrom_ne_nil : ∀ (rest : List Rule) (cur : Rule),
    coalesceFrom cur rest ≠ [] := by
  intro rest
  induction rest with
  | nil => intro cur h; exact absurd h (by simp [coalesceFrom])
  | cons r2 rest ih =>
      intro cur
      unfold coalesceFrom
      split
      · exact ih _
      · simp

theorem coalesceFrom_headD_low : ∀ (rest : List Rule) (cur : Rule),
    ((coalesceFrom cur rest).headD { low := 0, high := 0 }).low = cur.low := by
  intro rest
  induction rest with
  | nil => intro cur; rfl
  | cons r2 rest ih =>
      intro cur
      unfold coalesceFrom
      split
      · exact ih _
      · rfl

theorem coalesceFrom_wf : ∀ (rest : List Rule) (cur : Rule),
    cur.low ≤ cur.high → cur.high ≤ U32MAX → wfRules rest →
    wfRules (coalesceFrom cur rest) := by
  intro rest
  induction rest with
  | nil =>
      intro cur h1 h2 _
      intro r hr
      simp only [coalesceFrom, List.mem_singleton] at hr
      subst hr
      exact ⟨h1, h2⟩
  | cons r2 rest ih =>
      intro cur h1 h2 hwf
      have hr2 := hwf r2 (List.mem_cons_self r2 rest)
      have hrest : wfRules rest := fun r hr => hwf r (List.mem_cons_of_mem r2 hr)
      unfold coalesceFrom
      split
      · exact ih _ (by rw [mergeRule_low, mergeRule_high]; omega)
          (by rw [mergeRule_high]; omega) hrest
      · intro r hr
        rcases List.mem_cons.mp hr with h | h
        · subst h; exact ⟨h1, h2⟩
        · exact ih r2 hr2.1 hr2.2 hrest r h

theorem coalesceFrom_separated : ∀ (rest : List Rule) (cur : Rule),
    rest.Pairwise lowLE → (∀ x ∈ rest, cur.low ≤ x.low) →
    Separated (coalesceFrom cur rest) := by
  intro rest
  induction rest with
  | nil =>
      intro cur _ _
      simp [coalesceFrom, Separated]
  | cons r2 rest ih =>
      intro cur hp hcur
      have hp2 := (List.pairwise_cons.mp hp).2
      have hr2all := (List.pairwise_cons.mp hp).1
      unfold coalesceFrom
      split
      · refine ih _ hp2 ?_
        intro x hx
        have h1 : cur.low ≤ r2.low := hcur r2 (List.mem_cons_self r2 rest)
        have h2 : r2.low ≤ x.low := hr2all x hx
        rw [mergeRule_low]
        exact le_trans h1 h2
      · rename_i hgt
        rw [Separated, List.chain'_cons']
        constructor
        · intro y hy
          have hne := coalesceFrom_ne_nil rest r2
          have hld := coalesceFrom_headD_low rest r2
          cases hcf : coalesceFrom r2 rest with
          | nil => exact absurd hcf hne
          | cons z zs =>
              rw [hcf] at hy hld
              simp at hy hld
              subst hy
              omega
        · exact ih r2 hp2 (fun x hx => hr2all x hx)

theorem coalesceFrom_blacklisted : ∀ (rest : List Rule) (cur : Rule) (n : Nat),
    rest.Pairwise lowLE → (∀ x ∈ rest, cur.low ≤ x.low) →
    (blacklisted (coalesceFrom cur rest) n ↔
      (cur.low ≤ n ∧ n ≤ cur.high) ∨ blacklisted rest n) := by
  intro rest
  induction rest with
  | nil =>
      intro cur n _ _
      rw [show coalesceFrom cur [] = [cur] from rfl, blacklisted_cons]
  | cons r2 rest ih =>
      intro cur n hp hcur
      have hlow : cur.low ≤ r2.low := hcur r2 (List.mem_cons_self r2 rest)
      have hp2 := (List.pairwise_cons.mp hp).2
      have hr2all := (List.pairwise_cons.mp hp).1
      unfold coalesceFrom
      split
      · rename_i hle
        rw [ih _ n hp2 (fun x hx => by
            rw [mergeRule_low]
            exact hcur x (List.mem_cons_of_mem r2 hx)),
          blacklisted_cons, mergeRule_low, mergeRule_high]
        constructor
        · rintro (h | h)
          · by_cases hn : n ≤ cur.high
            · exact Or.inl ⟨h.1, hn⟩
            · refine Or.inr (Or.inl ⟨?_, ?_⟩) <;> omega
          · exact Or.inr (Or.inr h)
        · rintro (h | h | h)
          · exact Or.inl ⟨h.1, by omega⟩
          · exact Or.inl ⟨by omega, by omega⟩
          · exact Or.inr h
      · rw [blacklisted_cons, blacklisted_cons,
          ih r2 n hp2 (fun x hx => hr2all x hx)]

end Day20

namespace Day20

theorem coalesce_wf (l : List Rule) (h : wfRules l) : wfRules (coalesce l) := by
  cases l with
  | nil => exact h
  | cons r rest =>
      have hr := h r (List.mem_cons_self r rest)
      exact coalesceFrom_wf rest r hr.1 hr.2
        (fun x hx => h x (List.mem_cons_of_mem r hx))

theorem coalesce_separated (l : List Rule) (hp : l.Pairwise lowLE) :
    Separated (coalesce l) := by
  cases l with
  | nil => exact trivial
  | cons r rest =>
      exact coalesceFrom_separated rest r (List.pairwise_cons.mp hp).2
        (fun x hx => (List.pairwise_cons.mp hp).1 x hx)

theorem coalesce_blacklisted (l : List Rule) (hp : l.Pairwise lowLE) (n : Nat) :
    blacklisted (coalesce l) n ↔ blacklisted l n := by
  cases l with
  | nil => exact Iff.rfl
  | cons r rest =>
      rw [show coalesce (r :: rest) = coalesceFrom r rest from rfl,
        coalesceFrom_blacklisted rest r n (List.pairwise_cons.mp hp).2
          (fun x hx => (List.pairwise_cons.mp hp).1 x hx),
        blacklisted_cons]

theorem rule_le_low {a b : Rule} (h : ruleLE a b) : lowLE a b := by
  unfold ruleLE at h
  unfold lowLE
  omega

theorem sorted_pairwise_low (rules : List Rule) :
    (List.insertionSort ruleLE rules).Pairwise lowLE :=
  (List.sorted_insertionSort ruleLE rules).imp (fun h => rule_le_low h)

theorem orderedRules_wf (rules : List Rule) (h : wfRules rules) :
    wfRules (orderedRules rules) := by
  apply coalesce_wf
  intro r hr
  exact h r ((List.perm_insertionSort ruleLE rules).mem_iff.mp hr)

theorem orderedRules_separated (rules : List Rule) :
    Separated (orderedRules rules) :=
  coalesce_separated _ (sorted_pairwise_low rules)

theorem orderedRules_blacklisted (rules : List Rule) (n : Nat) :
    blacklisted (orderedRules rules) n ↔ blacklisted rules n := by
  rw [orderedRules, coalesce_blacklisted _ (sorted_pairwise_low rules) n]
  exact exists_congr (fun r =>
    and_congr_left (fun _ => (List.perm_insertionSort ruleLE rules).mem_iff))

theorem lastHigh_cons2 (r r2 : Rule) (rest : List Rule) :
    lastHigh (r :: r2 :: rest) = lastHigh (r2 :: rest) := rfl

theorem lastHigh_mem : ∀ l : List Rule, l ≠ [] → ∃ r ∈ l, r.high = lastHigh l := by
  intro l
  induction l using ruleListRec with
  | nil => intro h; exact absurd rfl h
  | single r => intro _; exact ⟨r, List.mem_singleton_self r, rfl⟩
  | cons2 r r2 rest ih =>
      intro _
      obtain ⟨x, hx, hh⟩ := ih (by simp)
      exact ⟨x, List.mem_cons_of_mem r hx, hh⟩

theorem high_le_lastHigh : ∀ l : List Rule, wfRules l → Separated l →
    ∀ r ∈ l, r.high ≤ lastHigh l := by
  intro l
  induction l using ruleListRec with
  | nil => intro _ _ r hr; exact absurd hr (List.not_mem_nil r)
  | single r =>
      intro _ _ x hx
      have hxr : x = r := List.mem_singleton.mp hx
      subst hxr
      exact Nat.le_refl _
  | cons2 r r2 rest ih =>
      intro hwf hsep x hx
      have hsep2 : Separated (r2 :: rest) := (List.chain'_cons.mp hsep).2
      have hlt : r.high < r2.low := (List.chain'_cons.mp hsep).1
      have hwf2 : wfRules (r2 :: rest) := fun y hy => hwf y (List.mem_cons_of_mem r hy)
      rw [lastHigh_cons2]
      rcases List.mem_cons.mp hx with h | h
      · subst h
        have h2 := ih hwf2 hsep2 r2 (List.mem_cons_self r2 rest)
        have hr2 := hwf2 r2 (List.mem_cons_self r2 rest)
        omega
      · exact ih hwf2 hsep2 x h

theorem lastHigh_le_max (l : List Rule) (hwf : wfRules l) (hne : l ≠ []) :
    lastHigh l ≤ U32MAX := by
  obtain ⟨r, hr, hh⟩ := lastHigh_mem l hne
  have := hwf r hr
  omega

theorem blacklisted_max_of_lastHigh (l : List Rule) (hwf : wfRules l) (hne : l ≠ [])
    (hlh : U32MAX ≤ lastHigh l) : blacklisted l U32MAX := by
  obtain ⟨r, hr, hh⟩ := lastHigh_mem l hne
  have := hwf r hr
  exact ⟨r, hr, by omega, by omega⟩

theorem not_blacklisted_max_of_lastHigh (l : List Rule) (hwf : wfRules l)
    (hsep : Separated l) (hlh : lastHigh l ≤ U32MAX - 1) :
    ¬ blacklisted l U32MAX := by
  rintro ⟨r, hr, h1, h2⟩
  have := high_le_lastHigh l hwf hsep r hr
  have hU := u32max_eq
  omega

end Day20

namespace Day20

theorem lastHigh_single (r : Rule) : lastHigh [r] = r.high := rfl

theorem wrap_succ_eq (r : Rule) (h : r.high < U32MAX) :
    wrapU32 (r.high + 1) = r.high + 1 := by
  have hU := u32max_eq
  unfold wrapU32
  omega

theorem llvLoop_none_nlv : ∀ l : List Rule, wfRules l → Separated l → l ≠ [] →
    llvLoop l = none →
    U32MAX - 1 ≤ lastHigh l ∧ nlvLoop l = U32MAX - lastHigh l := by
  intro l
  induction l using ruleListRec with
  | nil => intro _ _ h _; exact absurd rfl h
  | single r =>
      intro hwf _ _ hnone
      simp only [llvLoop] at hnone
      split at hnone
      · exact absurd hnone (by simp)
      · rename_i hge
        have hls := lastHigh_single r
        exact ⟨by omega, rfl⟩
  | cons2 r r2 rest ih =>
      intro hwf hsep _ hnone
      have hlt : r.high < r2.low := (List.chain'_cons.mp hsep).1
      have hr2wf := hwf r2 (by simp)
      have hhigh : r.high < U32MAX := by omega
      have hwrap := wrap_succ_eq r hhigh
      simp only [llvLoop] at hnone
      rw [hwrap] at hnone
      split at hnone
      · exact absurd hnone (by simp)
      · rename_i hng
        have hwf2 : wfRules (r2 :: rest) := fun y hy => hwf y (List.mem_cons_of_mem r hy)
        have hsep2 : Separated (r2 :: rest) := (List.chain'_cons.mp hsep).2
        have hih := ih hwf2 hsep2 (by simp) hnone
        refine ⟨by rw [lastHigh_cons2]; exact hih.1, ?_⟩
        rw [lastHigh_cons2]
        simp only [nlvLoop]
        rw [if_neg (by omega)]
        simpa using hih.2

theorem nlv_zero_llv_none : ∀ l : List Rule, wfRules l → Separated l →
    nlvLoop l = 0 → llvLoop l = none := by
  intro l
  induction l using ruleListRec with
  | nil => intro _ _ _; rfl
  | single r =>
      intro hwf _ hz
      simp only [nlvLoop] at hz
      simp only [llvLoop]
      rw [if_neg (by omega)]
  | cons2 r r2 rest ih =>
      intro hwf hsep hz
      have hlt : r.high < r2.low := (List.chain'_cons.mp hsep).1
      have hr2wf := hwf r2 (by simp)
      have hhigh : r.high < U32MAX := by omega
      have hwrap := wrap_succ_eq r hhigh
      simp only [nlvLoop] at hz
      split at hz
      · omega
      · rename_i hng
        simp only [llvLoop]
        rw [hwrap, if_neg (by omega)]
        exact ih (fun y hy => hwf y (List.mem_cons_of_mem r hy))
          ((List.chain'_cons.mp hsep).2) (by omega)

theorem nlv_zero_lastHigh : ∀ l : List Rule, l ≠ [] → nlvLoop l = 0 →
    U32MAX ≤ lastHigh l := by
  intro l
  induction l using ruleListRec with
  | nil => intro h _; exact absurd rfl h
  | single r =>
      intro _ hz
      simp only [nlvLoop] at hz
      have hls := lastHigh_single r
      omega
  | cons2 r r2 rest ih =>
      intro _ hz
      simp only [nlvLoop] at hz
      rw [lastHigh_cons2]
      exact ih (by simp) (by omega)

theorem nlv_one_llv_none : ∀ l : List Rule, wfRules l → Separated l →
    ¬ blacklisted l U32MAX → nlvLoop l = 1 → llvLoop l = none := by
  intro l
  induction l using ruleListRec with
  | nil =>
      intro _ _ _ hz
      simp only [nlvLoop] at hz
      exact absurd hz (by decide)
  | single r =>
      intro hwf _ _ hz
      have hrwf := hwf r (by simp)
      simp only [nlvLoop] at hz
      simp only [llvLoop]
      rw [if_neg (by omega)]
  | cons2 r r2 rest ih =>
      intro hwf hsep hbl hz
      have hlt : r.high < r2.low := (List.chain'_cons.mp hsep).1
      have hr2wf := hwf r2 (by simp)
      have hhigh : r.high < U32MAX := by omega
      have hwrap := wrap_succ_eq r hhigh
      have hwf2 : wfRules (r2 :: rest) := fun y hy => hwf y (List.mem_cons_of_mem r hy)
      have hsep2 : Separated (r2 :: rest) := (List.chain'_cons.mp hsep).2
      have hbl2 : ¬ blacklisted (r2 :: rest) U32MAX := by
        intro hb
        exact hbl ((blacklisted_cons r _ _).mpr (Or.inr hb))
      simp only [nlvLoop] at hz
      split at hz
      · rename_i hgap
        exfalso
        have htail : nlvLoop (r2 :: rest) = 0 := by omega
        exact hbl2 (blacklisted_max_of_lastHigh _ hwf2 (by simp)
          (nlv_zero_lastHigh _ (by simp) htail))
      · rename_i hng
        simp only [llvLoop]
        rw [hwrap, if_neg (by omega)]
        exact ih hwf2 hsep2 hbl2 (by omega)

end Day20

namespace Day20

/-- Counterexample to claim C3 as stated: the single (well-formed) rule
0-4294967294 blacklists every value except u32::MAX, so
lowest_legal_value returns None (its final-rule guard requires
`prev_high < u32::MAX - 1`) while num_legal_values returns 1, not 0. -/
theorem lowest_none_num_one_cx :
    wfRules [{ low := 0, high := 4294967294 }] ∧
    lowestLegalValue [{ low := 0, high := 4294967294 }] = none ∧
    numLegalValues [{ low := 0, high := 4294967294 }] = 1 := by
  refine ⟨by decide, by decide, by decide⟩

/-- Claim C3 (amended): for every finite sequence of blacklist rules in
which each rule is a genuine u32 range with low ≤ high,
lowest_legal_value returns None if and only if num_legal_values returns
0 or the rules leave u32::MAX as the only legal value (count 1 with
u32::MAX not blacklisted); and whenever lowest_legal_value returns
Some(v), num_legal_values returns a count of at least 1. -/
theorem lowest_num_agree (rules : List Rule) (hwf : wfRules rules) :
    (lowestLegalValue rules = none ↔
      (numLegalValues rules = 0 ∨
        (numLegalValues rules = 1 ∧ ¬ blacklisted rules U32MAX))) ∧
    (∀ v, lowestLegalValue rules = some v → 1 ≤ numLegalValues rules) := by
  have hwf' : wfRules (orderedRules rules) := orderedRules_wf rules hwf
  have hsep : Separated (orderedRules rules) := orderedRules_separated rules
  have hblm := orderedRules_blacklisted rules U32MAX
  cases hl : orderedRules rules with
  | nil =>
      have hlow : lowestLegalValue rules = none := by
        simp only [lowestLegalValue, hl]
      have hnum : numLegalValues rules = 0 := by
        simp only [numLegalValues, hl, nlvLoop]
      rw [hlow, hnum]
      exact ⟨by simp, by simp⟩
  | cons r rest =>
      rw [hl] at hwf' hsep hblm
      have hne : (r :: rest) ≠ [] := by simp
      have hlH := lastHigh_le_max _ hwf' hne
      have hU := u32max_eq
      by_cases hr0 : 0 < r.low
      · have hlow : lowestLegalValue rules = some 0 := by
          simp only [lowestLegalValue, hl]
          rw [if_pos hr0]
        have hnum : numLegalValues rules = r.low + nlvLoop (r :: rest) := by
          simp only [numLegalValues, hl]
          rw [if_pos hr0]
        constructor
        · rw [hlow, hnum]
          constructor
          · intro h
            exact absurd h (by simp)
          · rintro (h | ⟨h1, h2⟩)
            · omega
            · exfalso
              have hnz : nlvLoop (r :: rest) = 0 := by omega
              have hlh := nlv_zero_lastHigh _ hne hnz
              have hb := blacklisted_max_of_lastHigh _ hwf' hne hlh
              exact h2 (hblm.mp hb)
        · intro v hv
          rw [hnum]
          omega
      · have hlow : lowestLegalValue rules = llvLoop (r :: rest) := by
          simp only [lowestLegalValue, hl]
          rw [if_neg hr0]
        have hnum : numLegalValues rules = nlvLoop (r :: rest) := by
          simp only [numLegalValues, hl]
          rw [if_neg hr0]
          simp
        constructor
        · rw [hlow, hnum]
          constructor
          · intro h
            have hA := llvLoop_none_nlv _ hwf' hsep hne h
            by_cases hmax : lastHigh (r :: rest) = U32MAX
            · exact Or.inl (by omega)
            · refine Or.inr ⟨by omega, ?_⟩
              intro hb
              exact (not_blacklisted_max_of_lastHigh _ hwf' hsep (by omega))
                (hblm.mpr hb)
          · rintro (h | ⟨h1, h2⟩)
            · exact nlv_zero_llv_none _ hwf' hsep h
            · refine nlv_one_llv_none _ hwf' hsep ?_ h1
              intro hb
              exact h2 (hblm.mp hb)
        · intro v hv
          rw [hnum]
          by_cases hz : nlvLoop (r :: rest) = 0
          · exfalso
            have hno := nlv_zero_llv_none _ hwf' hsep hz
            rw [hlow, hno] at hv
            cases hv
          · omega

/-- Witness for claim C3 at the concrete rule list [5-8]. -/
theorem lowest_num_agree_witness :
    wfRules [{ low := 5, high := 8 }] ∧
    ((lowestLegalValue [{ low := 5, high := 8 }] = none ↔
       (numLegalValues [{ low := 5, high := 8 }] = 0 ∨
         (numLegalValues [{ low := 5, high := 8 }] = 1 ∧
          ¬ blacklisted [{ low := 5, high := 8 }] U32MAX))) ∧
     (∀ v, lowestLegalValue [{ low := 5, high := 8 }] = some v →
        1 ≤ numLegalValues [{ low := 5, high := 8 }])) :=
  ⟨by decide, lowest_num_agree [{ low := 5, high := 8 }] (by decide)⟩

end Day20







